import Mathlib

/-!
Verification of the Karplus–Strong pluck synthesizer (`ks.py`).

Shallow embedding of the two core functions of the repository:

* `generate f vol nsamples` — one note's waveform via the Karplus–Strong
  delay line (`ks.py`, `generate`);
* `generate_chord fs nsamples` — elementwise sum of several plucks
  (`ks.py`, `generate_chord`).

Python floats are modelled as exact rationals (`ℚ`).  The ambient numpy
randomness (`np.random.rand`) is made explicit: `generate` receives a
function `rand : ℕ → ℚ` giving the values that `np.random.rand N` would
produce (each in `[0,1)`), and `generate_chord` receives one such stream
per note.  Failures of the Python code (`ZeroDivisionError` from `i % 0`
or `// 0`, numpy's `ValueError` for a negative array dimension) are made
explicit with `Except`.  The control flow mirrors the source order:
`N = sample_rate // f` (raises on `f = 0`), then `np.random.rand(N)`
(raises for `N < 0`), then `np.empty(nsamples)` (raises for
`nsamples < 0`), then the loop (first access `buf[i % N]` raises on
`N = 0` when at least one iteration runs).
-/

/-- Module-level constant `sample_rate = 44100` of `ks.py`. -/
def sample_rate : ℤ := 44100

/-- Module-level constant `damping = 0.999` of `ks.py`. -/
def damping : ℚ := 999 / 1000

/-- The exceptions the Python code can actually raise on bad input:
`ZeroDivisionError` (integer `//` or `%` by zero) and numpy's
`ValueError` (negative array dimension in `np.random.rand`/`np.empty`). -/
inductive PyError where
  | zeroDivisionError
  | valueError
deriving DecidableEq

instance {ε α : Type} [DecidableEq ε] [DecidableEq α] : DecidableEq (Except ε α) := fun a b =>
  match a, b with
  | .error x, .error y =>
    if h : x = y then .isTrue (by rw [h])
    else .isFalse (by simp [h])
  | .error _, .ok _ => .isFalse (by simp)
  | .ok _, .error _ => .isFalse (by simp)
  | .ok x, .ok y =>
    if h : x = y then .isTrue (by rw [h])
    else .isFalse (by simp [h])

/-- Initial delay line `buf = np.random.rand(N) * 2 - 1`: a noise
burst of `N` values, each `rand j * 2 - 1` for a raw random `rand j`. -/
def initBuf (rand : ℕ → ℚ) (N : ℕ) : List ℚ :=
  (List.range N).map (fun j => rand j * 2 - 1)

/-- The `for i in range(nsamples)` loop body of `generate`, run `n` more
times starting at loop index `i`: emit `buf[i % N]`, then overwrite
`buf[i % N]` with `damping * 0.5 * (buf[i % N] + buf[(1 + i) % N])`.
Returns the emitted raw samples together with the final buffer. -/
def ksRun (buf : List ℚ) (i : ℕ) : ℕ → List ℚ × List ℚ
  | 0 => ([], buf)
  | n + 1 =>
    let N := buf.length
    let s := buf.getD (i % N) 0
    let avg := damping * (1 / 2) * (buf.getD (i % N) 0 + buf.getD ((1 + i) % N) 0)
    let r := ksRun (buf.set (i % N) avg) (i + 1) n
    (s :: r.1, r.2)

/-- Function `generate(f, vol, nsamples)` from `ks.py`, with the randomness
injected.  `N = sample_rate // f` is Python floor division (`Int.fdiv`);
the error cases reproduce the Python control flow (see module header). -/
def generate (rand : ℕ → ℚ) (f : ℤ) (vol : ℚ) (nsamples : ℤ) :
    Except PyError (List ℚ) :=
  if f = 0 then .error .zeroDivisionError
  else
    let N : ℤ := Int.fdiv sample_rate f
    if N < 0 then .error .valueError
    else if nsamples < 0 then .error .valueError
    else if N = 0 ∧ 0 < nsamples then .error .zeroDivisionError
    else .ok (((ksRun (initBuf rand N.toNat) 0 nsamples.toNat).1).map (· * vol))

/-- The `for note in f` loop of `generate_chord`: accumulate
`samples += generate(note, 0.5, nsamples)` and propagate the first
failure.  The head note uses random stream `rand 0`; the recursive call
shifts the streams so that overall the `k`-th note uses `rand k`. -/
def chordLoop (rand : ℕ → ℕ → ℚ) (acc : List ℚ) (ns : ℤ) :
    List ℤ → Except PyError (List ℚ)
  | [] => .ok acc
  | note :: rest =>
    match generate (rand 0) note (1 / 2) ns with
    | .error e => .error e
    | .ok w => chordLoop (fun k => rand (k + 1)) (List.zipWith (· + ·) acc w) ns rest

/-- Function `generate_chord(f, nsamples)` from `ks.py`:
`samples = np.zeros(nsamples)` (raises `ValueError` for negative
`nsamples`) then the accumulation loop. -/
def generate_chord (rand : ℕ → ℕ → ℚ) (fs : List ℤ) (nsamples : ℤ) :
    Except PyError (List ℚ) :=
  if nsamples < 0 then .error .valueError
  else chordLoop rand (List.replicate nsamples.toNat 0) nsamples fs

/-- The scaled sample list actually produced by a successful `generate`
call (the `.ok` payload): run the loop, scale by `vol`. -/
def genList (rand : ℕ → ℚ) (f : ℤ) (vol : ℚ) (n : ℤ) : List ℚ :=
  ((ksRun (initBuf rand (Int.fdiv sample_rate f).toNat) 0 n.toNat).1).map (· * vol)

/-- Follows the spec's words (one update of its step 3): write
`avg = damping * 0.5 * (buf[i mod N] + buf[(i+1) mod N])` back into
`buf[i mod N]`. -/
def specUpdate (buf : List ℚ) (i : ℕ) : List ℚ :=
  buf.set (i % buf.length)
    (damping * (1 / 2) * (buf.getD (i % buf.length) 0 + buf.getD ((i + 1) % buf.length) 0))

/-- Follows the spec's words: the delay line after the per-index updates
at indices `i, i+1, ..., i+k-1` have been applied in order, starting
from `buf`. -/
def specBufFrom (buf : List ℚ) (i : ℕ) : ℕ → List ℚ
  | 0 => buf
  | k + 1 => specUpdate (specBufFrom buf i k) (i + k)

/-- Follows the spec's words for the *rejected* alternative reading
(the batched emit-all-then-update-all semantics): the delay line after
`p` whole periods, every position updated from the previous period's
values only. -/
def batchedBuf (buf : List ℚ) : ℕ → List ℚ
  | 0 => buf
  | p + 1 =>
    let B := batchedBuf buf p
    (List.range B.length).map fun i =>
      damping * (1 / 2) * (B.getD i 0 + B.getD ((i + 1) % B.length) 0)

theorem specUpdate_length (buf : List ℚ) (i : ℕ) :
    (specUpdate buf i).length = buf.length :=
  List.length_set ..

theorem specBufFrom_length (buf : List ℚ) (i : ℕ) :
    ∀ k, (specBufFrom buf i k).length = buf.length := by
  intro k
  induction k with
  | zero => rfl
  | succ k ih => rw [specBufFrom, specUpdate_length, ih]

theorem specBufFrom_shift (buf : List ℚ) (i : ℕ) :
    ∀ k, specBufFrom (specUpdate buf i) (i + 1) k = specBufFrom buf i (k + 1) := by
  intro k
  induction k with
  | zero => rfl
  | succ k ih =>
      show specUpdate (specBufFrom (specUpdate buf i) (i + 1) k) (i + 1 + k) = _
      rw [ih, show i + 1 + k = i + (k + 1) from by omega]
      rfl

/-- The raw samples emitted by the source loop are exactly the spec's
per-index reads: sample `k` (counting from loop index `i`) is position
`(i + k) mod N` of the delay line after the updates at indices
`i, ..., i + k - 1`. -/
theorem ksRun_fst (n : ℕ) : ∀ (buf : List ℚ) (i : ℕ),
    (ksRun buf i n).1 =
      (List.range n).map (fun k => (specBufFrom buf i k).getD ((i + k) % buf.length) 0) := by
  induction n with
  | zero => intro buf i; rfl
  | succ n ih =>
      intro buf i
      rw [ksRun]
      have hupd : buf.set (i % buf.length)
          (damping * (1 / 2) *
            (buf.getD (i % buf.length) 0 + buf.getD ((1 + i) % buf.length) 0)) =
          specUpdate buf i := by
        rw [specUpdate, Nat.add_comm 1 i]
      simp only [hupd, ih (specUpdate buf i) (i + 1)]
      rw [List.range_succ_eq_map]
      simp only [List.map_cons, List.map_map]
      have hhead : (specBufFrom buf i 0).getD ((i + 0) % buf.length) 0 =
          buf.getD (i % buf.length) 0 := by
        simp [specBufFrom]
      have htail : ((fun k => (specBufFrom buf i k).getD ((i + k) % buf.length) 0) ∘
            Nat.succ) =
          fun k => (specBufFrom (specUpdate buf i) (i + 1) k).getD
            ((i + 1 + k) % (specUpdate buf i).length) 0 := by
        funext k
        have h1 : specBufFrom (specUpdate buf i) (i + 1) k = specBufFrom buf i (k + 1) :=
          specBufFrom_shift buf i k
        have h2 : (specUpdate buf i).length = buf.length := specUpdate_length buf i
        have h3 : i + 1 + k = i + (k + 1) := by omega
        simp only [Function.comp_apply, Nat.succ_eq_add_one, h1, h2, h3]
      simp only [hhead, htail]

theorem initBuf_length (rand : ℕ → ℚ) (N : ℕ) : (initBuf rand N).length = N := by
  simp [initBuf]

/-- On valid input, `generate` succeeds and returns `genList`. -/
theorem generate_eq_ok (rand : ℕ → ℚ) (f : ℤ) (vol : ℚ) (n : ℤ)
    (hN : 1 ≤ Int.fdiv sample_rate f) (hn : 0 ≤ n) :
    generate rand f vol n = .ok (genList rand f vol n) := by
  have hf : f ≠ 0 := by
    intro h
    subst h
    rw [show Int.fdiv sample_rate 0 = 0 from rfl] at hN
    omega
  rw [generate, if_neg hf, if_neg (by omega), if_neg (by omega),
    if_neg (by rintro ⟨h0, -⟩; omega)]
  rfl

/-- Lemma: `genList` spelled through the spec's per-index recurrence. -/
theorem genList_eq_map (rand : ℕ → ℚ) (f : ℤ) (vol : ℚ) (n : ℤ) :
    genList rand f vol n =
      (List.range n.toNat).map (fun k =>
        (specBufFrom (initBuf rand (Int.fdiv sample_rate f).toNat) 0 k).getD
          (k % (Int.fdiv sample_rate f).toNat) 0 * vol) := by
  rw [genList, ksRun_fst, List.map_map]
  apply List.map_congr_left
  intro k _
  simp [initBuf_length]

theorem genList_length (rand : ℕ → ℚ) (f : ℤ) (vol : ℚ) (n : ℤ) :
    (genList rand f vol n).length = n.toNat := by
  rw [genList_eq_map, List.length_map, List.length_range]

theorem getD_map_mul (vol : ℚ) (w : List ℚ) (i : ℕ) :
    (w.map (fun x => x * vol)).getD i 0 = w.getD i 0 * vol := by
  simp only [List.getD_eq_getElem?_getD, List.getElem?_map]
  cases h : w[i]? <;> simp

/-- Any entry read out of a `[-1, 1]`-bounded list with `getD _ 0` is
itself in `[-1, 1]` (the default `0` included). -/
theorem getD_bound (l : List ℚ) (j : ℕ) (h : ∀ x ∈ l, -1 ≤ x ∧ x ≤ 1) :
    -1 ≤ l.getD j 0 ∧ l.getD j 0 ≤ 1 := by
  by_cases hj : j < l.length
  · exact h _ (by rw [List.getD_eq_getElem l 0 hj]; exact List.getElem_mem hj)
  · rw [List.getD_eq_getElem?_getD, List.getElem?_eq_none (by omega)]
    norm_num

/-- The initial noise burst is within `[-1, 1]` whenever the raw random
values are within `[0, 1]`. -/
theorem initBuf_bound (rand : ℕ → ℚ) (N : ℕ) (hr : ∀ j, 0 ≤ rand j ∧ rand j ≤ 1) :
    ∀ x ∈ initBuf rand N, -1 ≤ x ∧ x ≤ 1 := by
  intro x hx
  rw [initBuf, List.mem_map] at hx
  obtain ⟨j, -, rfl⟩ := hx
  have := hr j
  constructor <;> nlinarith [this.1, this.2]

/-- One spec update keeps every delay-line value in `[-1, 1]`: the
written value is `damping * 0.5 * (a + b)` with `|a|, |b| ≤ 1` and
`damping < 1`. -/
theorem specUpdate_bound (buf : List ℚ) (i : ℕ) (h : ∀ x ∈ buf, -1 ≤ x ∧ x ≤ 1) :
    ∀ x ∈ specUpdate buf i, -1 ≤ x ∧ x ≤ 1 := by
  intro x hx
  rcases List.mem_or_eq_of_mem_set hx with hmem | rfl
  · exact h x hmem
  · have ha := getD_bound buf (i % buf.length) h
    have hb := getD_bound buf ((i + 1) % buf.length) h
    rw [damping]
    constructor <;> nlinarith [ha.1, ha.2, hb.1, hb.2]

/-- The delay line stays in `[-1, 1]` through any number of updates. -/
theorem specBufFrom_bound (buf : List ℚ) (i : ℕ) (h : ∀ x ∈ buf, -1 ≤ x ∧ x ≤ 1) :
    ∀ k, ∀ x ∈ specBufFrom buf i k, -1 ≤ x ∧ x ≤ 1 := by
  intro k
  induction k with
  | zero => exact h
  | succ k ih => exact specUpdate_bound _ _ ih

/-- During the first `N` iterations each delay-line position is still
unread past the current index: position `p` is untouched after the
first `k ≤ N` updates whenever `k ≤ p`. -/
theorem specBufFrom_untouched (buf : List ℚ) :
    ∀ k, k ≤ buf.length → ∀ p, k ≤ p → (specBufFrom buf 0 k)[p]? = buf[p]? := by
  intro k
  induction k with
  | zero => intro _ p _; rfl
  | succ k ih =>
      intro hk p hp
      show (specUpdate (specBufFrom buf 0 k) (0 + k))[p]? = buf[p]?
      rw [specUpdate]
      have hlen : (specBufFrom buf 0 k).length = buf.length := specBufFrom_length buf 0 k
      have hmod : (0 + k) % (specBufFrom buf 0 k).length = k := by
        rw [hlen, Nat.zero_add, Nat.mod_eq_of_lt (by omega)]
      rw [hmod, List.getElem?_set_ne (by omega)]
      exact ih (by omega) p (by omega)

/-- Adding a waveform elementwise into an all-zero accumulator of the
same length returns it unchanged (`np.zeros(n) + w == w`). -/
theorem zipWith_replicate_zero_add (w : List ℚ) :
    List.zipWith (· + ·) (List.replicate w.length 0) w = w := by
  induction w with
  | nil => rfl
  | cons x xs ih => simp [List.replicate_succ, ih]

/-- The accumulation loop of `generate_chord` on all-valid frequencies:
it returns the left fold of elementwise addition of the constituent
plucks (`k`-th note at volume `0.5` with random stream `rand k`) into
the accumulator. -/
theorem chordLoop_ok (fs : List ℤ) : ∀ (rand : ℕ → ℕ → ℚ) (acc : List ℚ) (n : ℤ),
    0 ≤ n → (∀ f ∈ fs, 1 ≤ Int.fdiv sample_rate f) →
    chordLoop rand acc n fs =
      .ok ((fs.mapIdx (fun k f => genList (rand k) f (1 / 2) n)).foldl
        (fun a w => List.zipWith (· + ·) a w) acc) := by
  induction fs with
  | nil => intro rand acc n _ _; rfl
  | cons f rest ih =>
      intro rand acc n hn hf
      rw [chordLoop, generate_eq_ok _ _ _ _ (hf f (List.mem_cons_self f rest)) hn]
      show chordLoop (fun k => rand (k + 1))
          (List.zipWith (· + ·) acc (genList (rand 0) f (1 / 2) n)) n rest = _
      rw [ih (fun k => rand (k + 1)) _ n hn (fun g hg => hf g (List.mem_cons_of_mem f hg))]
      rw [List.mapIdx_cons, List.foldl_cons]

/-- Lemma: `generate_chord` on all-valid frequencies succeeds with the
elementwise sum of the constituent plucks, folded into `np.zeros`. -/
theorem generate_chord_ok (rand : ℕ → ℕ → ℚ) (fs : List ℤ) (n : ℤ)
    (hn : 0 ≤ n) (hf : ∀ f ∈ fs, 1 ≤ Int.fdiv sample_rate f) :
    generate_chord rand fs n =
      .ok ((fs.mapIdx (fun k f => genList (rand k) f (1 / 2) n)).foldl
        (fun a w => List.zipWith (· + ·) a w) (List.replicate n.toNat 0)) := by
  rw [generate_chord, if_neg (by omega)]
  exact chordLoop_ok fs rand _ n hn hf

/-- If the `k`-th note's `generate` call fails while all earlier notes
succeed, the accumulation loop propagates exactly that failure. -/
theorem chordLoop_error (fs : List ℤ) : ∀ (k : ℕ) (rand : ℕ → ℕ → ℚ) (acc : List ℚ)
    (n : ℤ) (e : PyError) (hk : k < fs.length),
    (∀ j (hj : j < k), ∃ w, generate (rand j) (fs.get ⟨j, Nat.lt_trans hj hk⟩) (1 / 2) n = .ok w) →
    generate (rand k) (fs.get ⟨k, hk⟩) (1 / 2) n = .error e →
    chordLoop rand acc n fs = .error e := by
  induction fs with
  | nil => intro k rand acc n e hk _ _; exact absurd hk (by simp)
  | cons f rest ih =>
      intro k rand acc n e hk hpre herr
      cases k with
      | zero =>
          rw [chordLoop]
          rw [show (f :: rest).get ⟨0, hk⟩ = f from rfl] at herr
          rw [herr]
      | succ j =>
          obtain ⟨w, hw⟩ := hpre 0 (Nat.succ_pos j)
          rw [chordLoop]
          rw [show (f :: rest).get ⟨0, Nat.lt_trans (Nat.succ_pos j) hk⟩ = f from rfl] at hw
          rw [hw]
          have hk' : j < rest.length := by
            have := hk; simp only [List.length_cons] at this; omega
          refine ih j (fun m => rand (m + 1)) _ n e hk' ?_ ?_
          · intro j' hj'
            obtain ⟨w', hw'⟩ := hpre (j' + 1) (by omega)
            exact ⟨w', hw'⟩
          · exact herr

/-- C1: for every valid frequency (`1 ≤ sample_rate // f`), every volume
and every non-negative `nsamples`, `generate` succeeds with a waveform
of length exactly `nsamples`; in particular `nsamples = 0` yields the
empty waveform and no error. -/
theorem generate_length_exact (rand : ℕ → ℚ) (f : ℤ) (vol : ℚ)
    (hN : 1 ≤ Int.fdiv sample_rate f) :
    (∀ n : ℤ, 0 ≤ n → ∃ w, generate rand f vol n = .ok w ∧ (w.length : ℤ) = n) ∧
    generate rand f vol 0 = .ok [] := by
  constructor
  · intro n hn
    refine ⟨genList rand f vol n, generate_eq_ok rand f vol n hN hn, ?_⟩
    rw [genList_length]
    omega
  · rw [generate_eq_ok rand f vol 0 hN le_rfl]
    rfl

/-- Witness for C1 at `f = 22050`. -/
theorem generate_length_exact_witness :
    (∀ n : ℤ, 0 ≤ n →
      ∃ w, generate (fun _ => 1/2) 22050 (1/2) n = .ok w ∧ (w.length : ℤ) = n) ∧
    generate (fun _ => 1/2) 22050 (1/2) 0 = .ok [] :=
  generate_length_exact (fun _ => 1/2) 22050 (1/2) (by decide)

/-- C3: contrary to the claim, the code has no explicit InvalidFrequency
validation; an out-of-range frequency propagates the raw arithmetic
fault instead.  `generate(sample_rate + 1, 0.5, 100)` propagates
`ZeroDivisionError` (from `i % 0`), `generate(0, ...)` propagates
`ZeroDivisionError` (from `sample_rate // 0`), and a negative frequency
propagates numpy's `ValueError` (negative dimension in
`np.random.rand`). -/
theorem generate_invalid_frequency_behavior :
    generate (fun _ => 1/2) (sample_rate + 1) (1/2) 100 = .error .zeroDivisionError ∧
    generate (fun _ => 1/2) 0 (1/2) 100 = .error .zeroDivisionError ∧
    generate (fun _ => 1/2) (-220) (1/2) 100 = .error .valueError :=
  ⟨rfl, rfl, rfl⟩

/-- C5: volume linearity.  `generate(f, vol, n)` equals
`generate(f, 1.0, n)` scaled elementwise by `vol` (same random
excitation), and samplewise `generate(f, vol, n)[i] = vol *
generate(f, 1.0, n)[i]`; this holds for every input since `vol` never
affects the control flow. -/
theorem generate_volume_linear (rand : ℕ → ℚ) (f : ℤ) (vol : ℚ) (n : ℤ) :
    generate rand f vol n =
      Except.map (List.map (fun x => vol * x)) (generate rand f 1 n) ∧
    ∀ i : ℕ, ((generate rand f vol n).toOption.getD []).getD i 0 =
      vol * ((generate rand f 1 n).toOption.getD []).getD i 0 := by
  have hmap : ∀ (w : List ℚ) (i : ℕ),
      (w.map (fun x => vol * x)).getD i 0 = vol * w.getD i 0 := by
    intro w i
    simp only [List.getD_eq_getElem?_getD, List.getElem?_map]
    cases h : w[i]? <;> simp
  have h1 : generate rand f vol n =
      Except.map (List.map (fun x => vol * x)) (generate rand f 1 n) := by
    simp only [generate]
    split_ifs
    · rfl
    · rfl
    · rfl
    · rfl
    · simp only [Except.map, List.map_map]
      refine congrArg Except.ok (List.map_congr_left ?_)
      intro x _
      simp [mul_comm]
  refine ⟨h1, ?_⟩
  intro i
  rw [h1]
  cases hgen : generate rand f 1 n with
  | error e => simp [Except.map, Except.toOption]
  | ok w =>
      simp only [Except.map, Except.toOption, Option.getD_some]
      exact hmap w i

/-- C8: contrary to the claim, the code has no explicit InvalidDuration
validation; a negative `nsamples` propagates numpy's `ValueError`
(negative dimension in `np.empty`) for a normal frequency, and for
`f = 0` the `ZeroDivisionError` from `sample_rate // 0` fires first, so
not even the error kind is uniform across frequencies.  `nsamples = 0`
is indeed valid and returns the empty waveform. -/
theorem generate_negative_nsamples_behavior :
    generate (fun _ => 1/2) 440 (1/2) (-5) = .error .valueError ∧
    generate (fun _ => 1/2) 0 (1/2) (-5) = .error .zeroDivisionError ∧
    generate (fun _ => 1/2) 440 (1/2) 0 = .ok [] :=
  ⟨rfl, rfl, rfl⟩

/-- C9: the first `min(nsamples, N)` output samples are exactly the
initial random excitation values scaled by `vol`: each delay-line
position is emitted before it is first overwritten, so the whole first
period is the raw scaled noise burst. -/
theorem generate_first_period_is_noise (rand : ℕ → ℚ) (f : ℤ) (vol : ℚ) (n : ℤ)
    (hN : 1 ≤ Int.fdiv sample_rate f) (hn : 0 ≤ n) :
    ∃ w, generate rand f vol n = .ok w ∧
      ∀ i, i < min n.toNat (Int.fdiv sample_rate f).toNat →
        w.getD i 0 = (rand i * 2 - 1) * vol := by
  refine ⟨genList rand f vol n, generate_eq_ok rand f vol n hN hn, ?_⟩
  intro i hi
  have hin : i < n.toNat := lt_of_lt_of_le hi (min_le_left _ _)
  have hiN : i < (Int.fdiv sample_rate f).toNat := lt_of_lt_of_le hi (min_le_right _ _)
  rw [genList_eq_map]
  have hlen : i < ((List.range n.toNat).map (fun k =>
      (specBufFrom (initBuf rand (Int.fdiv sample_rate f).toNat) 0 k).getD
        (k % (Int.fdiv sample_rate f).toNat) 0 * vol)).length := by
    rw [List.length_map, List.length_range]; exact hin
  rw [List.getD_eq_getElem _ 0 hlen, List.getElem_map, List.getElem_range]
  have hmod : i % (Int.fdiv sample_rate f).toNat = i := Nat.mod_eq_of_lt hiN
  rw [hmod]
  have hbuflen : (initBuf rand (Int.fdiv sample_rate f).toNat).length =
      (Int.fdiv sample_rate f).toNat := initBuf_length ..
  have huntouched := specBufFrom_untouched (initBuf rand (Int.fdiv sample_rate f).toNat)
    i (by omega) i le_rfl
  rw [List.getD_eq_getElem?_getD, huntouched]
  simp [initBuf, List.getElem?_range, hiN]

/-- Witness for C9 at `f = 22050`, `n = 3`. -/
theorem generate_first_period_is_noise_witness :
    ∃ w, generate (fun _ => 1/2) 22050 (1/2) 3 = .ok w ∧
      ∀ i, i < min (3 : ℤ).toNat (Int.fdiv sample_rate 22050).toNat →
        w.getD i 0 = ((fun _ : ℕ => (1 : ℚ)/2) i * 2 - 1) * (1/2) :=
  generate_first_period_is_noise (fun _ => 1/2) 22050 (1/2) 3 (by decide) (by norm_num)

/-- C10: with excitation values in `[0, 1]` the delay line stays inside
`[-1, 1]` through every update (the written value is
`damping * 0.5 * (a + b)` with `|a|, |b| ≤ 1` and `damping ≤ 1`), and
consequently every output sample of `generate(f, vol, n)` has absolute
value at most `|vol|`. -/
theorem delay_line_bounded_invariant (rand : ℕ → ℚ) (f : ℤ) (vol : ℚ) (n : ℤ)
    (hr : ∀ j, 0 ≤ rand j ∧ rand j ≤ 1)
    (hN : 1 ≤ Int.fdiv sample_rate f) (hn : 0 ≤ n) :
    (∀ k, ∀ x ∈ specBufFrom (initBuf rand (Int.fdiv sample_rate f).toNat) 0 k,
      -1 ≤ x ∧ x ≤ 1) ∧
    ∃ w, generate rand f vol n = .ok w ∧ ∀ x ∈ w, |x| ≤ |vol| := by
  have hbuf := initBuf_bound rand (Int.fdiv sample_rate f).toNat hr
  refine ⟨fun k => specBufFrom_bound _ _ hbuf k, genList rand f vol n,
    generate_eq_ok rand f vol n hN hn, ?_⟩
  intro x hx
  rw [genList_eq_map, List.mem_map] at hx
  obtain ⟨k, -, rfl⟩ := hx
  have hraw := getD_bound _ (k % (Int.fdiv sample_rate f).toNat)
    (specBufFrom_bound _ 0 hbuf k)
  rw [abs_mul]
  have h1 : |(specBufFrom (initBuf rand (Int.fdiv sample_rate f).toNat) 0 k).getD
      (k % (Int.fdiv sample_rate f).toNat) 0| ≤ 1 := abs_le.mpr hraw
  nlinarith [abs_nonneg vol, h1, abs_nonneg ((specBufFrom (initBuf rand
    (Int.fdiv sample_rate f).toNat) 0 k).getD (k % (Int.fdiv sample_rate f).toNat) 0)]

/-- Witness for C10 at `f = 22050`, `vol = 1/2`, `n = 3`. -/
theorem delay_line_bounded_invariant_witness :
    (∀ k, ∀ x ∈ specBufFrom (initBuf (fun _ => 1/2) (Int.fdiv sample_rate 22050).toNat) 0 k,
      -1 ≤ x ∧ x ≤ 1) ∧
    ∃ w, generate (fun _ => 1/2) 22050 (1/2) 3 = .ok w ∧ ∀ x ∈ w, |x| ≤ |(1 : ℚ)/2| :=
  delay_line_bounded_invariant (fun _ => 1/2) 22050 (1/2) 3
    (fun _ => ⟨by norm_num, by norm_num⟩) (by decide) (by norm_num)

/-- C6 counterexample: with `f = 22050` (delay line `N = 2`) and the
excitation `rand 0 = 4/5`, `rand j = 99/100` otherwise (all values in
`[0, 1)`, giving the initial buffer `[3/5, 49/50] ⊆ [-1, 1]`), the sum
of squares over the second full period of `generate(f, 1.0, 4)` is
strictly larger than over the first: the per-period energy is *not*
non-increasing. -/
theorem generate_energy_not_monotone :
    generate (fun j => if j = 0 then 4/5 else 99/100) 22050 1 4 =
      .ok [3/5, 49/50, 78921/100000, 176744079/200000000] ∧
    (3/5 : ℚ)^2 + (49/50)^2 < (78921/100000)^2 + (176744079/200000000)^2 := by
  constructor
  · simp [generate, sample_rate, initBuf, ksRun, damping, List.range_succ]
    norm_num
  · norm_num

/-- C6 (amended): regardless of the random excitation (raw values in
`[0, 1]`), every sample of `generate(f, 1.0, n)` for valid `f` — the
initial samples in particular — lies in `[-1, 1]`. -/
theorem generate_output_bounded (rand : ℕ → ℚ) (f : ℤ) (n : ℤ)
    (hr : ∀ j, 0 ≤ rand j ∧ rand j ≤ 1)
    (hN : 1 ≤ Int.fdiv sample_rate f) (hn : 0 ≤ n) :
    ∃ w, generate rand f 1 n = .ok w ∧ ∀ x ∈ w, -1 ≤ x ∧ x ≤ 1 := by
  have hbuf := initBuf_bound rand (Int.fdiv sample_rate f).toNat hr
  refine ⟨genList rand f 1 n, generate_eq_ok rand f 1 n hN hn, ?_⟩
  intro x hx
  rw [genList_eq_map, List.mem_map] at hx
  obtain ⟨k, -, rfl⟩ := hx
  have hraw := getD_bound _ (k % (Int.fdiv sample_rate f).toNat)
    (specBufFrom_bound _ 0 hbuf k)
  constructor <;> nlinarith [hraw.1, hraw.2]

/-- Witness for the amended C6 at `f = 22050`, `n = 3`. -/
theorem generate_output_bounded_witness :
    ∃ w, generate (fun _ => 1/2) 22050 1 3 = .ok w ∧ ∀ x ∈ w, -1 ≤ x ∧ x ≤ 1 :=
  generate_output_bounded (fun _ => 1/2) 22050 3
    (fun _ => ⟨by norm_num, by norm_num⟩) (by decide) (by norm_num)

/-- C2: `generate` performs exactly the interleaved per-index update.
On valid input, output sample `i` is `vol` times position `i mod N` of
the delay line obtained by applying the spec's read-average-write step
at indices `0, ..., i-1` in order (`specBufFrom`, which averages the
current entry with its not-yet-updated successor and writes back before
the next index).  Moreover this differs from the batched
emit-all-then-update-all reading: at `f = 22050` (`N = 2`) with initial
buffer `[0, 1]` the two semantics produce different waveforms. -/
theorem generate_interleaved_update :
    (∀ (rand : ℕ → ℚ) (f : ℤ) (vol : ℚ) (n : ℤ),
      1 ≤ Int.fdiv sample_rate f → 0 ≤ n →
      generate rand f vol n = .ok ((List.range n.toNat).map (fun i =>
        (specBufFrom (initBuf rand (Int.fdiv sample_rate f).toNat) 0 i).getD
          (i % (Int.fdiv sample_rate f).toNat) 0 * vol))) ∧
    generate (fun j => if j = 0 then 1/2 else 1) 22050 1 4 ≠
      .ok ((List.range 4).map (fun i =>
        (batchedBuf (initBuf (fun j => if j = 0 then 1/2 else 1) 2) (i / 2)).getD
          (i % 2) 0 * 1)) := by
  constructor
  · intro rand f vol n hN hn
    rw [generate_eq_ok rand f vol n hN hn, genList_eq_map]
  · intro hcontra
    have h1 : generate (fun j => if j = 0 then 1/2 else 1) 22050 1 4 =
        .ok [0, 1, 999/2000, 2996001/4000000] := by
      simp [generate, sample_rate, initBuf, ksRun, damping, List.range_succ]
      norm_num
    have h2 : ((List.range 4).map (fun i =>
        (batchedBuf (initBuf (fun j : ℕ => if j = 0 then (1 : ℚ)/2 else 1) 2) (i / 2)).getD
          (i % 2) 0 * 1)) = [0, 1, 999/2000, 999/2000] := by
      simp [batchedBuf, initBuf, damping, List.range_succ]
      norm_num
    rw [h1, h2] at hcontra
    have hlist := Except.ok.inj hcontra
    simp only [List.cons.injEq] at hlist
    have := hlist.2.2.2.1
    norm_num at this

/-- Witness for the universally quantified part of C2 at `f = 22050`,
`n = 4`. -/
theorem generate_interleaved_update_witness :
    generate (fun _ => 1/2) 22050 1 4 = .ok ((List.range (4 : ℤ).toNat).map (fun i =>
      (specBufFrom (initBuf (fun _ => 1/2) (Int.fdiv sample_rate 22050).toNat) 0 i).getD
        (i % (Int.fdiv sample_rate 22050).toNat) 0 * 1)) :=
  generate_interleaved_update.1 (fun _ => 1/2) 22050 1 4 (by decide) (by norm_num)

/-- C4: on valid frequencies, each constituent call
`generate(fs[k], 0.5, n)` (with its own random stream `rand k`)
succeeds with payload `genList (rand k) fs[k] 0.5 n`, and
`generate_chord` returns exactly the elementwise sum (left fold of
`zipWith (+)` into `np.zeros n`) of those payloads; a one-note chord
equals the single pluck at volume `0.5`. -/
theorem generate_chord_is_sum (rand : ℕ → ℕ → ℚ) (n : ℤ) (hn : 0 ≤ n) :
    (∀ (r : ℕ → ℚ) (g : ℤ), 1 ≤ Int.fdiv sample_rate g →
      generate r g (1 / 2) n = .ok (genList r g (1 / 2) n)) ∧
    (∀ fs : List ℤ, (∀ f ∈ fs, 1 ≤ Int.fdiv sample_rate f) →
      generate_chord rand fs n =
        .ok ((fs.mapIdx (fun k f => genList (rand k) f (1 / 2) n)).foldl
          (fun a w => List.zipWith (· + ·) a w) (List.replicate n.toNat 0))) ∧
    (∀ f : ℤ, 1 ≤ Int.fdiv sample_rate f →
      generate_chord rand [f] n = generate (rand 0) f (1 / 2) n) := by
  refine ⟨fun r g hg => generate_eq_ok r g _ n hg hn,
    fun fs hf => generate_chord_ok rand fs n hn hf, ?_⟩
  intro f hf
  rw [generate_chord_ok rand [f] n hn (by simpa using hf),
    generate_eq_ok (rand 0) f _ n hf hn]
  congr 1
  show List.zipWith (· + ·) (List.replicate n.toNat 0) (genList (rand 0) f (1 / 2) n) =
    genList (rand 0) f (1 / 2) n
  rw [← genList_length (rand 0) f (1 / 2) n, zipWith_replicate_zero_add]

/-- Witness for C4 at `n = 2`. -/
theorem generate_chord_is_sum_witness :
    (∀ (r : ℕ → ℚ) (g : ℤ), 1 ≤ Int.fdiv sample_rate g →
      generate r g (1 / 2) 2 = .ok (genList r g (1 / 2) 2)) ∧
    (∀ fs : List ℤ, (∀ f ∈ fs, 1 ≤ Int.fdiv sample_rate f) →
      generate_chord (fun _ _ => 1/2) fs 2 =
        .ok ((fs.mapIdx (fun k f => genList ((fun _ _ : ℕ => (1 : ℚ)/2) k) f (1 / 2) 2)).foldl
          (fun a w => List.zipWith (· + ·) a w) (List.replicate (2 : ℤ).toNat 0))) ∧
    (∀ f : ℤ, 1 ≤ Int.fdiv sample_rate f →
      generate_chord (fun _ _ => 1/2) [f] 2 = generate ((fun _ _ : ℕ => (1 : ℚ)/2) 0) f (1 / 2) 2) :=
  generate_chord_is_sum (fun _ _ => 1/2) 2 (by norm_num)

/-- C7 counterexample: two chords whose sole (and hence offending)
frequencies differ — `[50000]` and `[88888]`, both with `N = 0` — fail
with the *identical* error value, the propagated `ZeroDivisionError`;
the surfaced failure is not an InvalidFrequency and carries no
information identifying which frequency caused it. -/
theorem generate_chord_error_anonymous :
    generate_chord (fun _ _ => 1/2) [50000] 10 = .error .zeroDivisionError ∧
    generate_chord (fun _ _ => 1/2) [88888] 10 = .error .zeroDivisionError :=
  ⟨rfl, rfl⟩

/-- C7 (amended): if the `k`-th note's `generate` call fails while all
earlier notes succeed, the whole chord synthesis aborts — no partial
accumulated waveform is returned — and exactly that failure value
surfaces to the caller (which, `PyError` carrying no frequency, does
not identify the offending frequency). -/
theorem generate_chord_failure_propagation (rand : ℕ → ℕ → ℚ) (fs : List ℤ) (n : ℤ)
    (k : ℕ) (e : PyError) (hk : k < fs.length) (hn : 0 ≤ n)
    (hpre : ∀ j (hj : j < k),
      ∃ w, generate (rand j) (fs.get ⟨j, Nat.lt_trans hj hk⟩) (1 / 2) n = .ok w)
    (herr : generate (rand k) (fs.get ⟨k, hk⟩) (1 / 2) n = .error e) :
    generate_chord rand fs n = .error e := by
  rw [generate_chord, if_neg (by omega)]
  exact chordLoop_error fs k rand _ n e hk hpre herr

/-- Witness for the amended C7: in `[22050, 50000]` the first note
succeeds and the second fails, so the chord propagates its
`ZeroDivisionError`. -/
theorem generate_chord_failure_propagation_witness :
    generate_chord (fun _ _ => 1/2) [22050, 50000] 10 = .error .zeroDivisionError := by
  refine generate_chord_failure_propagation (fun _ _ => 1/2) [22050, 50000] 10 1
    .zeroDivisionError (by norm_num) (by norm_num) ?_ rfl
  intro j hj
  have hj0 : j = 0 := by omega
  subst hj0
  exact ⟨genList (fun _ => 1/2) 22050 (1 / 2) 10,
    generate_eq_ok (fun _ => 1/2) 22050 (1 / 2) 10 (by decide) (by norm_num)⟩
